import Mathlib

/-!
Verification of the temporal collocation engine of pytesmo against its
specification.  The engine's Python module is reconstructed here as a
shallow embedding: timestamps are integers on a single comparable axis,
candidate rows are (timestamp, payload) pairs, NaN/no-match is `none`.
-/

namespace Pytesmo

/-- Absolute temporal distance between a reference timestamp `t` and a
candidate timestamp `c`. -/
def tdist (t c : Int) : Nat := (c - t).natAbs

/-- Modelled from the spec: NearestNeighborMatcher selection (§4.4) of the
missing `pytesmo.temporal_matching` module.  Among the candidate rows
(timestamp, payload) the one with minimum absolute signed distance to the
reference timestamp `t` wins; if two are equidistant the earlier row of the
(sorted) sequence — i.e. the lower timestamp — wins. -/
def nearestRow (t : Int) : List (Int × Int) → Option (Int × Int)
  | [] => none
  | r :: rs =>
    match nearestRow t rs with
    | none => some r
    | some b => if tdist t r.1 ≤ tdist t b.1 then some r else some b

/-- Modelled from the spec: window test of the missing matcher (§4.4),
applied after nearest-neighbour selection.  If the selected nearest
candidate is farther than the window there is no match; the window is a
closed bound and never causes the search to continue to a farther
candidate. -/
def matchRow (window : Nat) (t : Int) (cands : List (Int × Int)) :
    Option (Int × Int) :=
  match nearestRow t cands with
  | none => none
  | some r => if tdist t r.1 ≤ window then some r else none

/-- Number of candidate rows carrying exactly the timestamp `ts`. -/
def tsCount (cands : List (Int × Int)) (ts : Int) : Nat :=
  cands.countP (fun r => decide (r.1 = ts))

/-- Modelled from the spec: collapse mode of the DuplicateResolver (§4.2)
of the missing module.  Within each group of rows sharing a timestamp only
the single first occurrence is retained; all later occurrences are
discarded prior to search. -/
def dedupSeen (seen : List Int) : List (Int × Int) → List (Int × Int)
  | [] => []
  | r :: rs =>
    if r.1 ∈ seen then dedupSeen seen rs
    else r :: dedupSeen (r.1 :: seen) rs

/-- Duplicate collapsing over a whole candidate sequence. -/
def dedupRows (cands : List (Int × Int)) : List (Int × Int) :=
  dedupSeen [] cands

/-- Insert a candidate row into a timestamp-sorted list, before any row with
an equal or later timestamp. -/
def insertRow (r : Int × Int) : List (Int × Int) → List (Int × Int)
  | [] => [r]
  | s :: ss => if r.1 ≤ s.1 then r :: s :: ss else s :: insertRow r ss

/-- Modelled from the spec: candidate rows are sorted by timestamp
internally before matching (§3, CandidateTable).  The insertion sort is
stable, so rows with equal timestamps keep their input order. -/
def sortRows : List (Int × Int) → List (Int × Int)
  | [] => []
  | r :: rs => insertRow r (sortRows rs)

/-- Modelled from the spec: ValidityMask (§4.3) of the missing module.
`true` marks a row invalid; by default invalid rows are removed from the
eligible pool before search, while the use-invalid override ignores the
mask entirely. -/
def applyFlag (flag : Option (List Bool)) (useInv : Bool)
    (cands : List (Int × Int)) : List (Int × Int) :=
  match flag with
  | none => cands
  | some f =>
    if useInv then cands
    else (cands.zip f).filterMap (fun rb => if rb.2 then none else some rb.1)

/-- Keyword options of `temporal_collocation` (§6). -/
structure CollocOptions where
  dropduplicates : Bool
  dropna : Bool
  checkna : Bool
  useInv : Bool
deriving DecidableEq

/-- Modelled from the spec: the eligible candidate pool (§2 control flow):
validity mask, then internal sort, then optional duplicate collapsing. -/
def eligiblePool (opts : CollocOptions) (flag : Option (List Bool))
    (cands : List (Int × Int)) : List (Int × Int) :=
  let c := sortRows (applyFlag flag opts.useInv cands)
  if opts.dropduplicates then dedupRows c else c

/-- Modelled from the spec: matching of one reference timestamp (§4.2
preserve mode together with §4.4).  The nearest eligible candidate within
the window is selected; under default duplicate handling a nearest
candidate whose timestamp belongs to a duplicate group of the pool is
ambiguous and yields no match. -/
def collocateOne (window : Nat) (pool : List (Int × Int)) (t : Int) :
    Option (Int × Int) :=
  match matchRow window t pool with
  | none => none
  | some r => if 2 ≤ tsCount pool r.1 then none else some r

/-- Result of a collocation call: one output row per reference timestamp
(the matched candidate row or `none`), plus the single per-call no-match
warning flag. -/
structure CollocResult where
  rows : List (Int × Option (Int × Int))
  warned : Bool
deriving DecidableEq

/-- Modelled from the spec: the temporal collocation engine
`temporal_collocation` (§6, §4.5) of the missing module.  One output row
per reference timestamp holding the matched candidate row or `none`;
`dropna` removes exactly the unmatched rows; `checkna` raises the single
non-fatal warning when no reference timestamp matched, while the result is
still returned. -/
def temporal_collocation (refTimes : List Int) (cands : List (Int × Int))
    (window : Nat) (opts : CollocOptions) (flag : Option (List Bool)) :
    CollocResult :=
  let pool := eligiblePool opts flag cands
  let pairs := refTimes.map (fun t => (t, collocateOne window pool t))
  { rows := if opts.dropna then pairs.filter (fun p => p.2.isSome) else pairs
    warned := opts.checkna && pairs.all (fun p => p.2.isNone) }

/-! ### Basic facts about the nearest-neighbour selection -/

theorem nearestRow_eq_none {t : Int} {l : List (Int × Int)} :
    nearestRow t l = none ↔ l = [] := by
  cases l with
  | nil => simp [nearestRow]
  | cons r rs =>
    simp only [nearestRow]
    constructor
    · intro h
      cases hr : nearestRow t rs with
      | none => rw [hr] at h; simp at h
      | some b => rw [hr] at h; by_cases hd : tdist t r.1 ≤ tdist t b.1 <;>
          simp [hd] at h
    · intro h; cases h

theorem nearestRow_mem {t : Int} {l : List (Int × Int)} {r : Int × Int}
    (h : nearestRow t l = some r) : r ∈ l := by
  induction l generalizing r with
  | nil => cases h
  | cons a rs ih =>
    simp only [nearestRow] at h
    cases hr : nearestRow t rs with
    | none =>
      rw [hr] at h
      simp at h
      simp [h]
    | some b =>
      rw [hr] at h
      by_cases hd : tdist t a.1 ≤ tdist t b.1
      · simp [hd] at h; simp [h]
      · simp [hd] at h
        exact List.mem_cons_of_mem _ (h ▸ ih hr)

theorem nearestRow_min {t : Int} {l : List (Int × Int)} {r : Int × Int}
    (h : nearestRow t l = some r) :
    ∀ s ∈ l, tdist t r.1 ≤ tdist t s.1 := by
  induction l generalizing r with
  | nil => cases h
  | cons a rs ih =>
    simp only [nearestRow] at h
    cases hr : nearestRow t rs with
    | none =>
      rw [hr] at h
      simp at h
      have hrs : rs = [] := nearestRow_eq_none.mp hr
      subst hrs
      intro s hs
      simp at hs
      simp [hs, h]
    | some b =>
      rw [hr] at h
      by_cases hd : tdist t a.1 ≤ tdist t b.1
      · simp [hd] at h
        subst h
        intro s hs
        rcases List.mem_cons.mp hs with h1 | h2
        · simp [h1]
        · exact le_trans hd (ih hr s h2)
      · simp [hd] at h
        subst h
        intro s hs
        rcases List.mem_cons.mp hs with h1 | h2
        · exact le_of_lt (h1 ▸ Nat.lt_of_not_le hd)
        · exact ih hr s h2

theorem nearestRow_decomp {t : Int} {l : List (Int × Int)} {r : Int × Int}
    (h : nearestRow t l = some r) :
    ∃ l₁ l₂, l = l₁ ++ r :: l₂ ∧
      (∀ s ∈ l₁, tdist t r.1 < tdist t s.1) ∧
      (∀ s ∈ l₂, tdist t r.1 ≤ tdist t s.1) := by
  induction l generalizing r with
  | nil => cases h
  | cons a rs ih =>
    simp only [nearestRow] at h
    cases hr : nearestRow t rs with
    | none =>
      rw [hr] at h
      simp at h
      subst h
      have hrs : rs = [] := nearestRow_eq_none.mp hr
      subst hrs
      exact ⟨[], [], rfl, by simp, by simp⟩
    | some b =>
      rw [hr] at h
      by_cases hd : tdist t a.1 ≤ tdist t b.1
      · simp [hd] at h
        subst h
        refine ⟨[], rs, rfl, by simp, ?_⟩
        intro s hs
        exact le_trans hd (nearestRow_min hr s hs)
      · simp [hd] at h
        subst h
        obtain ⟨l₁, l₂, heq, h₁, h₂⟩ := ih hr
        refine ⟨a :: l₁, l₂, by simp [heq], ?_, h₂⟩
        intro s hs
        rcases List.mem_cons.mp hs with h1 | h2
        · exact h1 ▸ Nat.lt_of_not_le hd
        · exact h₁ s h2

theorem nearestRow_of_decomp {t : Int} {l₁ l₂ : List (Int × Int)}
    {r : Int × Int}
    (h₁ : ∀ s ∈ l₁, tdist t r.1 < tdist t s.1)
    (h₂ : ∀ s ∈ l₂, tdist t r.1 ≤ tdist t s.1) :
    nearestRow t (l₁ ++ r :: l₂) = some r := by
  induction l₁ with
  | nil =>
    simp only [List.nil_append, nearestRow]
    cases hr : nearestRow t l₂ with
    | none => rfl
    | some b =>
      have hb : tdist t r.1 ≤ tdist t b.1 := h₂ b (nearestRow_mem hr)
      simp [hb]
  | cons a l₁' ih =>
    have hrec : nearestRow t (l₁' ++ r :: l₂) = some r := by
      apply ih
      intro s hs
      exact h₁ s (List.mem_cons_of_mem _ hs)
    rw [List.cons_append]
    simp only [nearestRow]
    rw [hrec]
    have ha : ¬ tdist t a.1 ≤ tdist t r.1 :=
      Nat.not_le.mpr (h₁ a (List.mem_cons_self _ _))
    simp [ha]

/-! ### Facts about the windowed match and the per-reference step -/

theorem matchRow_eq_some {w : Nat} {t : Int} {pool : List (Int × Int)}
    {r : Int × Int} :
    matchRow w t pool = some r ↔
      nearestRow t pool = some r ∧ tdist t r.1 ≤ w := by
  unfold matchRow
  cases hn : nearestRow t pool with
  | none => simp
  | some b =>
    by_cases hb : tdist t b.1 ≤ w
    · simp only [hb, if_true]
      constructor
      · intro h; cases h; exact ⟨rfl, hb⟩
      · intro ⟨h1, _⟩; cases h1; rfl
    · simp only [hb, if_false]
      constructor
      · intro h; cases h
      · intro ⟨h1, h2⟩; cases h1; exact absurd h2 hb

theorem collocateOne_eq_some {w : Nat} {pool : List (Int × Int)} {t : Int}
    {r : Int × Int} :
    collocateOne w pool t = some r ↔
      matchRow w t pool = some r ∧ tsCount pool r.1 < 2 := by
  unfold collocateOne
  cases hm : matchRow w t pool with
  | none => simp
  | some b =>
    by_cases hc : 2 ≤ tsCount pool b.1
    · simp only [hc, if_true]
      constructor
      · intro h; cases h
      · intro ⟨h1, h2⟩; cases h1; exact absurd hc (Nat.not_le.mpr h2)
    · simp only [hc, if_false]
      constructor
      · intro h; cases h; exact ⟨rfl, Nat.lt_of_not_le hc⟩
      · intro ⟨h1, _⟩; cases h1; rfl

theorem collocateOne_none_of_dup {w : Nat} {pool : List (Int × Int)}
    {t : Int} {r : Int × Int} (hm : matchRow w t pool = some r)
    (hd : 2 ≤ tsCount pool r.1) : collocateOne w pool t = none := by
  unfold collocateOne
  rw [hm]
  simp [hd]

/-! ### Facts about duplicate collapsing -/

theorem dedupSeen_subset {x : Int × Int} :
    ∀ {seen : List Int} {l : List (Int × Int)},
      x ∈ dedupSeen seen l → x ∈ l := by
  intro seen l
  induction l generalizing seen with
  | nil => intro h; cases h
  | cons r rs ih =>
    intro h
    simp only [dedupSeen] at h
    by_cases hr : r.1 ∈ seen
    · simp only [hr, if_true] at h
      exact List.mem_cons_of_mem _ (ih h)
    · simp only [hr, if_false] at h
      rcases List.mem_cons.mp h with h1 | h2
      · simp [h1]
      · exact List.mem_cons_of_mem _ (ih h2)

theorem dedupSeen_decomp {r : Int × Int} :
    ∀ (l₁ : List (Int × Int)) (seen : List Int) (l₂ : List (Int × Int)),
      r.1 ∉ seen → (∀ s ∈ l₁, s.1 ≠ r.1) →
      ∃ d₁ d₂, dedupSeen seen (l₁ ++ r :: l₂) = d₁ ++ r :: d₂ ∧
        (∀ s ∈ d₁, s ∈ l₁) ∧ (∀ s ∈ d₂, s ∈ l₂) := by
  intro l₁
  induction l₁ with
  | nil =>
    intro seen l₂ hseen _
    refine ⟨[], dedupSeen (r.1 :: seen) l₂, ?_, by simp, ?_⟩
    · simp [dedupSeen, hseen]
    · intro s hs
      exact dedupSeen_subset hs
  | cons a l₁' ih =>
    intro seen l₂ hseen hne
    have hane : a.1 ≠ r.1 := hne a (List.mem_cons_self _ _)
    by_cases ha : a.1 ∈ seen
    · obtain ⟨d₁, d₂, heq, hd₁, hd₂⟩ :=
        ih seen l₂ hseen (fun s hs => hne s (List.mem_cons_of_mem _ hs))
      refine ⟨d₁, d₂, ?_, fun s hs => List.mem_cons_of_mem _ (hd₁ s hs), hd₂⟩
      simp only [List.cons_append, dedupSeen, ha, if_true]
      exact heq
    · have hseen' : r.1 ∉ a.1 :: seen := by
        intro hmem
        rcases List.mem_cons.mp hmem with h1 | h2
        · exact hane h1.symm
        · exact hseen h2
      obtain ⟨d₁, d₂, heq, hd₁, hd₂⟩ :=
        ih (a.1 :: seen) l₂ hseen'
          (fun s hs => hne s (List.mem_cons_of_mem _ hs))
      refine ⟨a :: d₁, d₂, ?_, ?_, hd₂⟩
      · simp only [List.cons_append, dedupSeen, ha, if_false]
        exact congrArg (List.cons a) heq
      · intro s hs
        rcases List.mem_cons.mp hs with h1 | h2
        · simp [h1]
        · exact List.mem_cons_of_mem _ (hd₁ s h2)

theorem tsCount_dedupSeen_of_mem :
    ∀ (l : List (Int × Int)) (seen : List Int) (ts : Int), ts ∈ seen →
      tsCount (dedupSeen seen l) ts = 0 := by
  intro l
  induction l with
  | nil => intro seen ts _; rfl
  | cons r rs ih =>
    intro seen ts hts
    simp only [dedupSeen]
    by_cases hr : r.1 ∈ seen
    · simp only [hr, if_true]
      exact ih seen ts hts
    · simp only [hr, if_false]
      have hne : r.1 ≠ ts := fun h => hr (h ▸ hts)
      simp only [tsCount, List.countP_cons, decide_eq_true_eq, hne, if_false]
      have := ih (r.1 :: seen) ts (List.mem_cons_of_mem _ hts)
      simpa [tsCount] using this

theorem tsCount_dedupSeen_le_one :
    ∀ (l : List (Int × Int)) (seen : List Int) (ts : Int),
      tsCount (dedupSeen seen l) ts ≤ 1 := by
  intro l
  induction l with
  | nil => intro seen ts; exact Nat.zero_le 1
  | cons r rs ih =>
    intro seen ts
    simp only [dedupSeen]
    by_cases hr : r.1 ∈ seen
    · simp only [hr, if_true]; exact ih seen ts
    · simp only [hr, if_false]
      by_cases hts : r.1 = ts
      · subst hts
        have h0 : tsCount (dedupSeen (r.1 :: seen) rs) r.1 = 0 :=
          tsCount_dedupSeen_of_mem rs (r.1 :: seen) r.1 (List.mem_cons_self _ _)
        simp only [tsCount] at h0 ⊢
        simp [List.countP_cons, h0]
      · simp only [tsCount, List.countP_cons, decide_eq_true_eq, hts, if_false]
        have := ih (r.1 :: seen) ts
        simpa [tsCount] using this

theorem nearestRow_dedup {t : Int} {pool : List (Int × Int)} {r : Int × Int}
    (hn : nearestRow t pool = some r) :
    nearestRow t (dedupRows pool) = some r := by
  obtain ⟨l₁, l₂, heq, h₁, h₂⟩ := nearestRow_decomp hn
  have hne : ∀ s ∈ l₁, s.1 ≠ r.1 := by
    intro s hs habs
    have := h₁ s hs
    rw [tdist, tdist, habs] at this
    exact lt_irrefl _ this
  obtain ⟨d₁, d₂, hdeq, hd₁, hd₂⟩ :=
    dedupSeen_decomp l₁ [] l₂ (by simp) hne
  rw [dedupRows, heq, hdeq]
  exact nearestRow_of_decomp
    (fun s hs => h₁ s (hd₁ s hs)) (fun s hs => h₂ s (hd₂ s hs))

/-! ### Facts about the internal sort and the eligible pool -/

theorem insertRow_mem {x r : Int × Int} {l : List (Int × Int)} :
    x ∈ insertRow r l ↔ x = r ∨ x ∈ l := by
  induction l with
  | nil => simp [insertRow]
  | cons s ss ih =>
    simp only [insertRow]
    by_cases hr : r.1 ≤ s.1
    · simp [hr, List.mem_cons]
    · simp only [hr, if_false, List.mem_cons, ih]
      tauto

theorem sortRows_mem {x : Int × Int} {l : List (Int × Int)} :
    x ∈ sortRows l ↔ x ∈ l := by
  induction l with
  | nil => simp [sortRows]
  | cons r rs ih =>
    simp only [sortRows, insertRow_mem, ih, List.mem_cons]

/-- Sortedness of a candidate row list by timestamp (weak). -/
def sortedRows (l : List (Int × Int)) : Prop :=
  l.Pairwise (fun a b => a.1 ≤ b.1)

/-- Strict sortedness of a candidate row list by timestamp. -/
def strictSortedRows (l : List (Int × Int)) : Prop :=
  l.Pairwise (fun a b => a.1 < b.1)

theorem sortRows_eq_self {l : List (Int × Int)} (h : sortedRows l) :
    sortRows l = l := by
  induction l with
  | nil => rfl
  | cons r rs ih =>
    rw [sortedRows, List.pairwise_cons] at h
    rw [sortRows, ih h.2]
    cases rs with
    | nil => rfl
    | cons s ss =>
      have hr : r.1 ≤ s.1 := h.1 s (List.mem_cons_self _ _)
      simp [insertRow, hr]

theorem eligiblePool_none_flag {opts : CollocOptions}
    {cands : List (Int × Int)} (hs : sortedRows cands) :
    eligiblePool opts none cands =
      if opts.dropduplicates then dedupRows cands else cands := by
  unfold eligiblePool applyFlag
  rw [sortRows_eq_self hs]

theorem applyFlag_subset {f : List Bool} {cands : List (Int × Int)}
    {x : Int × Int} (h : x ∈ applyFlag (some f) false cands) : x ∈ cands := by
  simp only [applyFlag, if_false, Bool.false_eq_true] at h
  rw [List.mem_filterMap] at h
  obtain ⟨rb, hmem, hval⟩ := h
  by_cases hb : rb.2
  · simp [hb] at hval
  · simp only [hb, if_false, Option.some.injEq, Bool.false_eq_true] at hval
    exact hval ▸ (List.of_mem_zip hmem).1

theorem eligiblePool_subset {opts : CollocOptions}
    {flag : Option (List Bool)} {cands : List (Int × Int)} {x : Int × Int}
    (h : x ∈ eligiblePool opts flag cands) :
    x ∈ applyFlag flag opts.useInv cands := by
  unfold eligiblePool at h
  by_cases hd : opts.dropduplicates
  · simp only [hd, if_true] at h
    exact sortRows_mem.mp (dedupSeen_subset h)
  · simp only [hd, if_false] at h
    exact sortRows_mem.mp h

theorem temporal_collocation_rows {refTimes : List Int}
    {cands : List (Int × Int)} {w : Nat} {opts : CollocOptions}
    {flag : Option (List Bool)} (h : opts.dropna = false) :
    (temporal_collocation refTimes cands w opts flag).rows =
      refTimes.map
        (fun t => (t, collocateOne w (eligiblePool opts flag cands) t)) := by
  unfold temporal_collocation
  simp [h]

/-! ### Timestamp normalization (timezones) -/

/-- Modelled from the spec: a timestamp sequence of the missing module that
is either naive (`tz = none`, wall-clock values) or zone-aware
(`tz = some o`, UTC instants with a fixed zone offset `o`, so the local
wall-clock value of an instant `u` is `u + o`). -/
structure TimeSeries where
  tz : Option Int
  times : List Int
deriving DecidableEq

/-- Change of displayed zone of a zone-aware series: the UTC instants are
unchanged, only the zone offset changes. -/
def tz_convert (s : TimeSeries) (o : Int) : TimeSeries :=
  { tz := some o, times := s.times }

/-- Modelled from the spec: resolve_timezone (§4.1, §9) of the missing
module.  If exactly one side carries a zone the naive side is treated as
already expressed in that zone, so comparison proceeds on wall-clock
values; if both are zone-aware they are compared on UTC instants; if both
are naive they are compared as-is.  Both sequences are returned on one
comparable axis (UTC instants when any zone is present). -/
def normalizePair (ref cand : TimeSeries) : List Int × List Int :=
  match ref.tz, cand.tz with
  | none, none => (ref.times, cand.times)
  | some o, none => (ref.times, cand.times.map (fun w => w - o))
  | none, some o => (ref.times.map (fun w => w - o), cand.times)
  | some _, some _ => (ref.times, cand.times)

/-- Modelled from the spec: the collocation entry applied after timestamp
normalization (§4.1).  Candidate payloads are carried along the normalized
candidate timestamps. -/
def temporal_collocation_tz (ref cand : TimeSeries) (payloads : List Int)
    (window : Nat) (opts : CollocOptions) (flag : Option (List Bool)) :
    CollocResult :=
  let p := normalizePair ref cand
  temporal_collocation p.1 (p.2.zip payloads) window opts flag

/-! ### The deprecated legacy windowed matcher -/

/-- One-sidedness option of the legacy matcher. -/
inductive AsymWindow where
  | both
  | le
  | ge
deriving DecidableEq

/-- Modelled from the spec: one-sided candidate eligibility of the legacy
matcher (§6): `le` keeps only candidates at or before the reference
timestamp, `ge` only candidates at or after it, `both` keeps all. -/
def asymOk : AsymWindow → Int → Int → Bool
  | .both, _, _ => true
  | .le, c, t => decide (c ≤ t)
  | .ge, c, t => decide (t ≤ c)

/-- Modelled from the spec: the signed distance field of the legacy matcher
(§6): candidate timestamp minus reference timestamp, negative exactly when
the candidate precedes the reference timestamp. -/
def legacyDistance (t : Int) (r : Int × Int) : Int := r.1 - t

/-- Modelled from the spec: the deprecated legacy windowed matcher
`df_match` (§6) of the missing module.  Per reference row (timestamp,
possibly-NaN payload) it finds the nearest candidate within the window over
the one-sided filtered candidate pool and carries the reference payload
along. -/
def df_match (refRows : List (Int × Option Int)) (cands : List (Int × Int))
    (window : Nat) (asym : AsymWindow) :
    List (Int × Option Int × Option (Int × Int)) :=
  refRows.map (fun rv =>
    (rv.1, rv.2,
      matchRow window rv.1
        (sortRows (cands.filter (fun r => asymOk asym r.1 rv.1)))))

/-- Modelled from the spec: the deprecated legacy `matching` entry point
(§1, §6) of the missing module, which joins the reference payload with the
legacy match result and — as its tests pin down — keeps only rows in which
every joined field is present (non-NaN). -/
def matching (refRows : List (Int × Option Int)) (cands : List (Int × Int))
    (window : Nat) : List (Int × Int × Int) :=
  (df_match refRows cands window .both).filterMap (fun tvm =>
    match tvm.2.1, tvm.2.2 with
    | some x, some r => some (tvm.1, x, r.2)
    | _, _ => none)

/-! ### Concrete data of the legacy matching test (timestamps in hours) -/

/-- Reference rows of the legacy matching test: daily timestamps at hour 0,
payloads 0, 1, 2, NaN, 4. -/
def testRefRows : List (Int × Option Int) :=
  [(0, some 0), (24, some 1), (48, some 2), (72, none), (96, some 4)]

/-- Candidate rows of the legacy matching test: the same days at hour 9,
payloads 0 to 4. -/
def testCandRows : List (Int × Int) :=
  [(9, 0), (33, 1), (57, 2), (81, 3), (105, 4)]

/-! ### Counting helpers for unique timestamps -/

theorem tsCount_eq_zero_of_not_mem {l : List (Int × Int)} {ts : Int}
    (h : ts ∉ l.map Prod.fst) : tsCount l ts = 0 := by
  rw [tsCount, List.countP_eq_zero]
  intro r hr habs
  simp only [decide_eq_true_eq] at habs
  exact h (habs ▸ List.mem_map_of_mem Prod.fst hr)

theorem tsCount_le_one_of_nodup {l : List (Int × Int)}
    (h : (l.map Prod.fst).Nodup) (ts : Int) : tsCount l ts ≤ 1 := by
  induction l with
  | nil => exact Nat.zero_le 1
  | cons r rs ih =>
    simp only [List.map_cons, List.nodup_cons] at h
    by_cases hts : r.1 = ts
    · have h0 : tsCount rs ts = 0 :=
        tsCount_eq_zero_of_not_mem (hts ▸ h.1)
      simp only [tsCount, List.countP_cons, decide_eq_true_eq, hts, if_true]
      simp only [tsCount] at h0
      omega
    · simp only [tsCount, List.countP_cons, decide_eq_true_eq, hts, if_false]
      have := ih h.2
      simpa [tsCount] using this

theorem list_map_congr {α β : Type} {f g : α → β} :
    ∀ {l : List α}, (∀ a ∈ l, f a = g a) → l.map f = l.map g := by
  intro l
  induction l with
  | nil => intro _; rfl
  | cons a as ih =>
    intro h
    simp only [List.map_cons, h a (List.mem_cons_self _ _)]
    rw [ih (fun x hx => h x (List.mem_cons_of_mem _ hx))]

/-- In a list with unique timestamps, each row is its own timestamp's
nearest match: the definitive decomposition for the identity round trip. -/
theorem collocateOne_self {cands : List (Int × Int)} {r : Int × Int}
    (hnd : (cands.map Prod.fst).Nodup) (hr : r ∈ cands) (w : Nat) :
    collocateOne w cands r.1 = some r := by
  obtain ⟨l₁, l₂, heq⟩ := List.append_of_mem hr
  subst heq
  have hkeys : (l₁.map Prod.fst ++ r.1 :: l₂.map Prod.fst).Nodup := by
    simpa using hnd
  have hnotl₁ : r.1 ∉ l₁.map Prod.fst := by
    have := (List.nodup_append.mp hkeys).2.2
    intro habs
    exact this habs (List.mem_cons_self _ _)
  have hnear : nearestRow r.1 (l₁ ++ r :: l₂) = some r := by
    apply nearestRow_of_decomp
    · intro s hs
      have hne : s.1 ≠ r.1 := by
        intro habs
        exact hnotl₁ (habs ▸ List.mem_map_of_mem Prod.fst hs)
      simp only [tdist]
      omega
    · intro s _
      simp only [tdist]
      omega
  rw [collocateOne_eq_some]
  constructor
  · rw [matchRow_eq_some]
    refine ⟨hnear, ?_⟩
    simp [tdist]
  · exact Nat.lt_of_le_of_lt (tsCount_le_one_of_nodup hnd r.1) (by omega)

theorem temporal_collocation_rows_default {refTimes : List Int}
    {cands : List (Int × Int)} {w : Nat} (hs : sortedRows cands) :
    (temporal_collocation refTimes cands w
        ⟨false, false, false, false⟩ none).rows =
      refTimes.map (fun t => (t, collocateOne w cands t)) := by
  rw [@temporal_collocation_rows refTimes cands w
    ⟨false, false, false, false⟩ none rfl]
  have h1 : eligiblePool ⟨false, false, false, false⟩ none cands = cands := by
    rw [@eligiblePool_none_flag ⟨false, false, false, false⟩ cands hs]
    simp
  rw [h1]

theorem temporal_collocation_rows_dropdup {refTimes : List Int}
    {cands : List (Int × Int)} {w : Nat} (hs : sortedRows cands) :
    (temporal_collocation refTimes cands w
        ⟨true, false, false, false⟩ none).rows =
      refTimes.map (fun t => (t, collocateOne w (dedupRows cands) t)) := by
  rw [@temporal_collocation_rows refTimes cands w
    ⟨true, false, false, false⟩ none rfl]
  have h1 : eligiblePool ⟨true, false, false, false⟩ none cands =
      dedupRows cands := by
    rw [@eligiblePool_none_flag ⟨true, false, false, false⟩ cands hs]
    simp
  rw [h1]

theorem mem_map_pair {refTimes : List Int} {g : Int → Option (Int × Int)}
    {t : Int} {m : Option (Int × Int)} (ht : t ∈ refTimes) (h : g t = m) :
    (t, m) ∈ refTimes.map (fun u => (u, g u)) := by
  subst h
  exact List.mem_map_of_mem (fun u => (u, g u)) ht

/-! ### The claims -/

/-- C1: Under default settings (duplicate collapsing off) every reference
timestamp whose nearest-found candidate timestamp belongs to a group of
exactly duplicated candidate timestamps produces no match (a `none` output
row), while with `dropduplicates` enabled the group is collapsed to its
single retained first occurrence before search and that reference
timestamp matches exactly the retained candidate row. -/
theorem duplicate_ambiguity_and_collapse (w : Nat) (refTimes : List Int)
    (cands : List (Int × Int)) (t : Int) (r : Int × Int)
    (hs : sortedRows cands) (ht : t ∈ refTimes)
    (hn : nearestRow t cands = some r) (hdup : 2 ≤ tsCount cands r.1)
    (hw : tdist t r.1 ≤ w) :
    collocateOne w cands t = none ∧
    collocateOne w (dedupRows cands) t = some r ∧
    (t, (none : Option (Int × Int))) ∈
      (temporal_collocation refTimes cands w
        ⟨false, false, false, false⟩ none).rows ∧
    (t, some r) ∈
      (temporal_collocation refTimes cands w
        ⟨true, false, false, false⟩ none).rows := by
  have hm : matchRow w t cands = some r := matchRow_eq_some.mpr ⟨hn, hw⟩
  have c1 : collocateOne w cands t = none := collocateOne_none_of_dup hm hdup
  have hcount : tsCount (dedupRows cands) r.1 < 2 := by
    have h := tsCount_dedupSeen_le_one cands [] r.1
    rw [dedupRows]
    omega
  have c2 : collocateOne w (dedupRows cands) t = some r :=
    collocateOne_eq_some.mpr
      ⟨matchRow_eq_some.mpr ⟨nearestRow_dedup hn, hw⟩, hcount⟩
  refine ⟨c1, c2, ?_, ?_⟩
  · rw [temporal_collocation_rows_default hs]
    exact mem_map_pair ht c1
  · rw [temporal_collocation_rows_dropdup hs]
    exact mem_map_pair ht c2

theorem duplicate_ambiguity_and_collapse_witness :
    collocateOne 0 [((0 : Int), (1 : Int)), (0, 2)] 0 = none ∧
    collocateOne 0 (dedupRows [((0 : Int), (1 : Int)), (0, 2)]) 0 =
      some (0, 1) ∧
    ((0 : Int), (none : Option (Int × Int))) ∈
      (temporal_collocation [0] [(0, 1), (0, 2)] 0
        ⟨false, false, false, false⟩ none).rows ∧
    ((0 : Int), some ((0 : Int), (1 : Int))) ∈
      (temporal_collocation [0] [(0, 1), (0, 2)] 0
        ⟨true, false, false, false⟩ none).rows :=
  duplicate_ambiguity_and_collapse 0 [0] [(0, 1), (0, 2)] 0 (0, 1)
    (by unfold sortedRows; decide) (by decide) (by decide) (by decide)
    (by decide)

/-- C2: The window bound is a closed interval: a reference timestamp whose
nearest-found candidate lies at absolute distance exactly equal to the
window is matched to it, and a matched candidate always lies within the
window, so a candidate strictly beyond the window is never matched. -/
theorem window_closed_interval (w : Nat) (refTimes : List Int)
    (cands : List (Int × Int)) (t : Int)
    (hs : sortedRows cands) (ht : t ∈ refTimes) :
    (∀ r, nearestRow t cands = some r → tdist t r.1 = w →
      tsCount cands r.1 < 2 →
      (t, some r) ∈
        (temporal_collocation refTimes cands w
          ⟨false, false, false, false⟩ none).rows) ∧
    (∀ m r, (t, m) ∈
        (temporal_collocation refTimes cands w
          ⟨false, false, false, false⟩ none).rows →
      m = some r → tdist t r.1 ≤ w) := by
  constructor
  · intro r hn hd hc
    have hcol : collocateOne w cands t = some r :=
      collocateOne_eq_some.mpr
        ⟨matchRow_eq_some.mpr ⟨hn, le_of_eq hd⟩, hc⟩
    rw [temporal_collocation_rows_default hs]
    exact mem_map_pair ht hcol
  · intro m r hmem hm
    rw [temporal_collocation_rows_default hs] at hmem
    rw [List.mem_map] at hmem
    obtain ⟨t', _, heq⟩ := hmem
    have ht' : t' = t := congrArg Prod.fst heq
    have hm' : collocateOne w cands t' = m := congrArg Prod.snd heq
    rw [ht', hm] at hm'
    exact (matchRow_eq_some.mp (collocateOne_eq_some.mp hm').1).2

theorem window_closed_interval_witness :
    ((0 : Int), some ((5 : Int), (7 : Int))) ∈
      (temporal_collocation [0] [(5, 7)] 5
        ⟨false, false, false, false⟩ none).rows :=
  (window_closed_interval 5 [0] [(5, 7)] 0 (by unfold sortedRows; decide)
      (by decide)).1
    (5, 7) (by decide) (by decide) (by decide)

/-- C8: For a reference timestamp whose immediate predecessor and successor
in the strictly sorted candidate sequence are exactly equidistant from it,
the matcher deterministically selects the earlier (lower-timestamp)
candidate. -/
theorem tie_break_earlier (t : Int) (l₁ l₂ : List (Int × Int))
    (p s : Int × Int) (hs : strictSortedRows (l₁ ++ p :: s :: l₂))
    (hp : p.1 ≤ t) (hq : t ≤ s.1) (heq : t - p.1 = s.1 - t) :
    nearestRow t (l₁ ++ p :: s :: l₂) = some p := by
  rw [strictSortedRows, List.pairwise_append] at hs
  obtain ⟨h₁, h₂, hcross⟩ := hs
  rw [List.pairwise_cons] at h₂
  obtain ⟨hpall, h₃⟩ := h₂
  rw [List.pairwise_cons] at h₃
  obtain ⟨hsall, _⟩ := h₃
  apply nearestRow_of_decomp
  · intro x hx
    have hxp : x.1 < p.1 := hcross x hx p (List.mem_cons_self _ _)
    simp only [tdist]
    omega
  · intro x hx
    rcases List.mem_cons.mp hx with h1 | h2
    · subst h1
      simp only [tdist]
      omega
    · have hsx : s.1 < x.1 := hsall x h2
      simp only [tdist]
      omega

theorem tie_break_earlier_witness :
    nearestRow 1 [((0 : Int), (10 : Int)), (2, 20)] = some (0, 10) :=
  tie_break_earlier 1 [] [] (0, 10) (2, 20)
    (by unfold strictSortedRows; decide) (by decide) (by decide) (by decide)

/-- C9: Round trip on identity: when the candidate timestamps equal the
reference timestamps exactly (unique and sorted), every reference row
matches its own candidate row — same timestamp, hence signed distance
zero — carrying that candidate's payload, and no output row is `none`. -/
theorem identity_roundtrip (cands : List (Int × Int)) (w : Nat)
    (hs : sortedRows cands) (hnd : (cands.map Prod.fst).Nodup) :
    (temporal_collocation (cands.map Prod.fst) cands w
        ⟨false, false, false, false⟩ none).rows =
      cands.map (fun r => (r.1, some r)) := by
  rw [temporal_collocation_rows_default hs]
  rw [List.map_map]
  apply list_map_congr
  intro r hr
  simp only [Function.comp]
  rw [collocateOne_self hnd hr w]

theorem identity_roundtrip_witness :
    (temporal_collocation
        (([((0 : Int), (3 : Int)), (5, 9)]).map Prod.fst)
        [((0 : Int), (3 : Int)), (5, 9)] 2
        ⟨false, false, false, false⟩ none).rows =
      ([((0 : Int), (3 : Int)), (5, 9)]).map (fun r => (r.1, some r)) :=
  identity_roundtrip [(0, 3), (5, 9)] 2 (by unfold sortedRows; decide)
    (by decide)

theorem applyFlag_not_mem {cands : List (Int × Int)} {f : List Bool}
    {r : Int × Int} (hnd : cands.Nodup) (hmem : (r, true) ∈ cands.zip f) :
    r ∉ applyFlag (some f) false cands := by
  induction cands generalizing f with
  | nil => cases hmem
  | cons c cs ih =>
    cases f with
    | nil => cases hmem
    | cons b bs =>
      rw [List.nodup_cons] at hnd
      rw [List.zip_cons_cons, List.mem_cons] at hmem
      simp only [applyFlag, if_neg, List.zip_cons_cons,
        List.filterMap_cons]
      rcases hmem with h1 | h2
      · have hc : r = c := congrArg Prod.fst h1
        have hb : b = true := (congrArg Prod.snd h1).symm
        subst hb
        intro habs
        have : r ∈ cs := applyFlag_subset habs
        exact hnd.1 (hc ▸ this)
      · have hrcs : r ∈ cs := (List.of_mem_zip h2).1
        have hrest := ih hnd.2 h2
        cases b with
        | true =>
          intro habs
          exact hrest habs
        | false =>
          intro habs
          simp only [if_neg, Bool.false_eq_true] at habs
          rcases List.mem_cons.mp habs with hx | hx
          · exact hnd.1 (hx ▸ hrcs)
          · exact hrest hx

/-- C4: Supplying a validity flag together with the use-invalid override
yields a result identical to supplying no flag at all — the mask is ignored
entirely and every candidate row stays eligible; with the override off, a
row marked invalid (flag `true`) is removed from the eligible pool before
nearest-neighbour search and can never be the match. -/
theorem flag_mask_semantics (refTimes : List Int) (cands : List (Int × Int))
    (w : Nat) (dd dn cn : Bool) (f : List Bool) (r : Int × Int) :
    temporal_collocation refTimes cands w ⟨dd, dn, cn, true⟩ (some f) =
      temporal_collocation refTimes cands w ⟨dd, dn, cn, false⟩ none ∧
    (cands.Nodup → (r, true) ∈ cands.zip f →
      r ∉ applyFlag (some f) false cands) ∧
    (cands.Nodup → (r, true) ∈ cands.zip f → ∀ t dd' dn' cn',
      collocateOne w (eligiblePool ⟨dd', dn', cn', false⟩ (some f) cands) t
        ≠ some r) := by
  refine ⟨rfl, fun hnd hmem => applyFlag_not_mem hnd hmem, ?_⟩
  intro hnd hmem t dd' dn' cn' habs
  have hr : r ∈ eligiblePool ⟨dd', dn', cn', false⟩ (some f) cands :=
    nearestRow_mem (matchRow_eq_some.mp (collocateOne_eq_some.mp habs).1).1
  exact applyFlag_not_mem hnd hmem (eligiblePool_subset hr)

theorem flag_mask_semantics_witness :
    temporal_collocation [0] [((0 : Int), (1 : Int))] 1
        ⟨false, false, false, true⟩ (some [true]) =
      temporal_collocation [0] [(0, 1)] 1
        ⟨false, false, false, false⟩ none :=
  (flag_mask_semantics [0] [(0, 1)] 1 false false false [true] (0, 1)).1

/-- C5: The output table has exactly one row per reference timestamp (row
count equals reference length), unmatched rows carrying `none`, unless
`dropna` is enabled, in which case exactly the no-match rows are removed —
the remaining rows are the matched ones, in reference order, and every one
of them carries its matched candidate row. -/
theorem output_shape (refTimes : List Int) (cands : List (Int × Int))
    (w : Nat) (dd cn ui : Bool) (flag : Option (List Bool)) :
    (temporal_collocation refTimes cands w
        ⟨dd, false, cn, ui⟩ flag).rows.length = refTimes.length ∧
    (temporal_collocation refTimes cands w ⟨dd, true, cn, ui⟩ flag).rows =
      (temporal_collocation refTimes cands w
        ⟨dd, false, cn, ui⟩ flag).rows.filter (fun p => p.2.isSome) ∧
    ∀ p ∈ (temporal_collocation refTimes cands w ⟨dd, true, cn, ui⟩ flag).rows,
      p.2.isSome = true := by
  refine ⟨?_, rfl, ?_⟩
  · simp [temporal_collocation]
  · intro p hp
    simp only [temporal_collocation, if_pos] at hp
    exact (List.mem_filter.mp hp).2

theorem output_shape_witness :
    (temporal_collocation [0, 1] [((0 : Int), (9 : Int))] 0
        ⟨false, false, false, false⟩ none).rows.length = 2 :=
  (output_shape [0, 1] [(0, 9)] 0 false false false none).1

/-- C6: With `checkna` enabled the call sets its single per-call non-fatal
warning exactly when zero reference timestamps produced a match, and still
returns its rows rather than failing; with `checkna` disabled no warning is
ever raised; the rows themselves never depend on `checkna`. -/
theorem checkna_warning_semantics (refTimes : List Int)
    (cands : List (Int × Int)) (w : Nat) (dd dn ui : Bool)
    (flag : Option (List Bool)) :
    ((temporal_collocation refTimes cands w ⟨dd, dn, true, ui⟩ flag).warned
        = true ↔
      ∀ t ∈ refTimes,
        collocateOne w (eligiblePool ⟨dd, dn, true, ui⟩ flag cands) t
          = none) ∧
    (temporal_collocation refTimes cands w ⟨dd, dn, false, ui⟩ flag).warned
      = false ∧
    (temporal_collocation refTimes cands w ⟨dd, dn, true, ui⟩ flag).rows =
      (temporal_collocation refTimes cands w ⟨dd, dn, false, ui⟩ flag).rows
    := by
  refine ⟨?_, rfl, rfl⟩
  simp only [temporal_collocation, Bool.true_and, List.all_eq_true,
    List.mem_map, Option.isNone_iff_eq_none]
  constructor
  · intro h t ht
    exact h (t, collocateOne w (eligiblePool ⟨dd, dn, true, ui⟩ flag cands) t)
      ⟨t, ht, rfl⟩
  · intro h p hp
    obtain ⟨t, ht, heq⟩ := hp
    have := h t ht
    rw [← heq]
    exact this

theorem checkna_warning_semantics_witness :
    (temporal_collocation [0] [] 0 ⟨false, false, true, false⟩ none).warned
      = true :=
  (checkna_warning_semantics [0] [] 0 false false false none).1.mpr
    (by decide)

theorem df_match_matched_ok {refRows : List (Int × Option Int)}
    {cands : List (Int × Int)} {w : Nat} {asym : AsymWindow} {t : Int}
    {v : Option Int} {m : Option (Int × Int)} {r : Int × Int}
    (hmem : (t, v, m) ∈ df_match refRows cands w asym) (hm : m = some r) :
    asymOk asym r.1 t = true := by
  subst hm
  simp only [df_match, List.mem_map] at hmem
  obtain ⟨rv, hrv, heq⟩ := hmem
  have ht : rv.1 = t := congrArg Prod.fst heq
  have hm2 : matchRow w rv.1
      (sortRows (cands.filter (fun x => asymOk asym x.1 rv.1))) = some r := by
    have h2 := congrArg (fun p => p.2.2) heq
    simpa using h2
  have hr : r ∈ sortRows (cands.filter (fun x => asymOk asym x.1 rv.1)) :=
    nearestRow_mem (matchRow_eq_some.mp hm2).1
  rw [sortRows_mem] at hr
  have hfil := (List.mem_filter.mp hr).2
  rw [ht] at hfil
  exact hfil

/-- C7: The legacy windowed matcher with asym_window le matches a reference
timestamp only to candidates at or before it, with ge only to candidates at
or after it, and in every mode the signed distance field (candidate
timestamp minus reference timestamp, in the time unit) of a match is
negative exactly when the matched candidate precedes the reference
timestamp. -/
theorem df_match_asym_sign (refRows : List (Int × Option Int))
    (cands : List (Int × Int)) (w : Nat) (t : Int) (v : Option Int)
    (m : Option (Int × Int)) (r : Int × Int) (a : AsymWindow) :
    ((t, v, m) ∈ df_match refRows cands w .le → m = some r → r.1 ≤ t) ∧
    ((t, v, m) ∈ df_match refRows cands w .ge → m = some r → t ≤ r.1) ∧
    ((t, v, m) ∈ df_match refRows cands w a → m = some r →
      (legacyDistance t r < 0 ↔ r.1 < t)) := by
  refine ⟨?_, ?_, ?_⟩
  · intro hmem hm
    have := df_match_matched_ok hmem hm
    simpa [asymOk] using this
  · intro hmem hm
    have := df_match_matched_ok hmem hm
    simpa [asymOk] using this
  · intro _ _
    simp only [legacyDistance]
    omega

theorem df_match_asym_sign_witness : (5 : Int) ≤ 10 :=
  (df_match_asym_sign [(10, some 1)] [(5, 2)] 100 10 (some 1)
    (some ((5 : Int), (2 : Int))) (5, 2) .both).1 (by decide) (by decide)

/-- C10: The legacy matching operation returns only rows in which every
joined field is non-NaN: every output row stems from a reference row whose
own payload is present, and on the concrete data of its test (reference
payload NaN on day four, every reference having a candidate nine hours
later within the window) the output holds the four complete rows against
five reference rows, without any drop option being requested. -/
theorem matching_keeps_only_complete_rows
    (refRows : List (Int × Option Int)) (cands : List (Int × Int))
    (w : Nat) (t x d : Int) :
    ((t, x, d) ∈ matching refRows cands w → (t, some x) ∈ refRows) ∧
    matching testRefRows testCandRows 12 =
      [(0, 0, 0), (24, 1, 1), (48, 2, 2), (96, 4, 4)] ∧
    testRefRows.length = 5 := by
  refine ⟨?_, by decide, rfl⟩
  intro h
  simp only [matching, List.mem_filterMap] at h
  obtain ⟨⟨t', v, m⟩, hmem, hval⟩ := h
  cases v with
  | none => simp at hval
  | some x' =>
    cases m with
    | none => simp at hval
    | some rr =>
      simp only [Option.some.injEq, Prod.mk.injEq] at hval
      obtain ⟨h1, h2, _⟩ := hval
      simp only [df_match, List.mem_map] at hmem
      obtain ⟨rv, hrv, heq⟩ := hmem
      have ha : rv.1 = t' := congrArg Prod.fst heq
      have hb : rv.2 = some x' := by
        have := congrArg (fun p => p.2.1) heq
        simpa using this
      have hrv2 : rv = (t', some x') := by
        rw [← ha, ← hb]
      rw [hrv2] at hrv
      rw [h1, h2] at hrv
      exact hrv

theorem matching_keeps_only_complete_rows_witness :
    ((0 : Int), some (0 : Int)) ∈ testRefRows :=
  (matching_keeps_only_complete_rows testRefRows testCandRows 12 0 0 0).1
    (by decide)

/-- C3 counterexample: the claimed invariance of the match outcome under
tz_convert fails when exactly one input is zone-aware: converting the
zone-aware candidate series to another zone re-interprets the naive
reference in the new zone, flipping its match to a no-match. -/
theorem timezone_mixed_convert_counterexample :
    ¬ ((temporal_collocation_tz ⟨none, [0]⟩ ⟨some 0, [0]⟩ [5] 0
          ⟨false, false, false, false⟩ none).rows.map Prod.snd =
       (temporal_collocation_tz ⟨none, [0]⟩
          (tz_convert ⟨some 0, [0]⟩ 100) [5] 0
          ⟨false, false, false, false⟩ none).rows.map Prod.snd) := by
  decide

/-- C3 amended: timestamp normalization follows the fixed rule — with
exactly one zone-aware side the naive side is treated as already expressed
in that zone (wall-clock comparison, no conversion), two zone-aware sides
are compared on UTC instants, and two naive sides are compared as-is — and
the match/no-match outcome is invariant under tz_convert of either input
when both inputs are zone-aware; with exactly one zone-aware input the
outcome can depend on that input's zone. -/
theorem timezone_rules_and_aware_invariance (rt ct : List Int)
    (o₁ o₂ o₁' o₂' : Int) (ps : List Int) (w : Nat) (opts : CollocOptions)
    (flag : Option (List Bool)) :
    normalizePair ⟨none, rt⟩ ⟨none, ct⟩ = (rt, ct) ∧
    normalizePair ⟨some o₁, rt⟩ ⟨none, ct⟩ =
      (rt, ct.map (fun x => x - o₁)) ∧
    normalizePair ⟨none, rt⟩ ⟨some o₂, ct⟩ =
      (rt.map (fun x => x - o₂), ct) ∧
    temporal_collocation_tz (tz_convert ⟨some o₁, rt⟩ o₁') ⟨some o₂, ct⟩
        ps w opts flag =
      temporal_collocation_tz ⟨some o₁, rt⟩ ⟨some o₂, ct⟩ ps w opts flag ∧
    temporal_collocation_tz ⟨some o₁, rt⟩ (tz_convert ⟨some o₂, ct⟩ o₂')
        ps w opts flag =
      temporal_collocation_tz ⟨some o₁, rt⟩ ⟨some o₂, ct⟩ ps w opts flag :=
  ⟨rfl, rfl, rfl, rfl, rfl⟩

theorem timezone_rules_and_aware_invariance_witness :
    normalizePair ⟨none, [0]⟩ ⟨none, [1]⟩ = ([0], [1]) :=
  (timezone_rules_and_aware_invariance [0] [1] 0 0 0 0 [] 0
    ⟨false, false, false, false⟩ none).1

end Pytesmo
